import Mathlib

/-!
# Verification of the Python-Enigma package

Shallow embedding of the classes `Rotor` (src/Rotor.py), `Reflector`
(src/Reflector.py), `ETW` (src/ETW.py) and `EnigmaMachine` (src/Enigma.py).

Modelling conventions:
* Python ints are `Nat`/`Int`; Python `%` on a positive modulus is `Int.emod`
  (both give a result in `[0, n)`), so positions and readings are embedded
  with `%` on `Int` and converted back with `toNat`.
* A rotor wire is embedded as a `List Nat` (the list/tuple form used by the
  package: key `i` maps to the `i`-th entry; `Rotor.wire_inspection` converts
  lists to `{i: value}` dicts, so list keys are exactly `0..n-1`).
* The reverse wire dict `{value: key}` built in `Rotor.__init__` after
  `wire_inspection` has validated the wire (so each value occurs exactly once)
  is embedded as `List.indexOf`.
* Python dicts used as the plugboard are embedded as association lists with
  first-match lookup; insertion (`d[k] = v`) updates the entry when the key is
  present and appends otherwise, deletion (`del d[k]`) removes the entry.
* The machine's translator is modelled as the default identity translator
  (`EnigmaMachine.__init__` with `translator=[]` builds `{i: i}`), under which
  `translate_in_integer` is the identity on `[0, n)` and raises `ValueError`
  outside it, and `translate_number` is the identity on machine outputs.
* Exceptions are modelled with explicit error values; functions that mutate
  state before raising return the mutated state alongside the error.
-/

/-- Rotation mode of a rotor: the Python strings `'normal'`, `'reversed'`,
`'without'` (field `Rotor._rotation`; `None` is normalised to `'normal'` by
the `Rotor.rotation` setter and to `'without'` by the `Reflector`/`ETW`
setters, so the embedding takes the already-normalised value). -/
inductive RotationMode
  | normal
  | reversed
  | without
deriving DecidableEq, Repr

/-- Embedding of the `Rotor` class state (src/Rotor.py).  `description` is
opaque metadata, kept as an optional string. -/
structure Rotor where
  wire : List Nat
  offset : Nat := 0
  position : Nat := 0
  turnovers : List Nat := []
  rotation : RotationMode := .normal
  description : Option String := none
deriving DecidableEq, Repr

/-- `Rotor.length`: the number of values inside the wire. -/
def Rotor.length (r : Rotor) : Nat :=
  r.wire.length

/-- `Rotor.modifier`: `self._position - self._offset` (a Python int, possibly
negative). -/
def Rotor.modifier (r : Rotor) : Int :=
  (r.position : Int) - (r.offset : Int)

/-- Embedding of `Rotor.wire_inspection` as a boolean check, for wires given
in the list/tuple form (where the keys are `0..n-1` by construction, so the
`NonLinearWire` check always passes).  It checks the source's conditions:
at least two entries (`IndexError`), and `set(wire.values()) ==
set(wire.keys()) = {0..n-1}` (`AsymmetricWire`), i.e. every index below the
length occurs among the values and every value is below the length. -/
def wireInspection (w : List Nat) : Bool :=
  decide (2 ≤ w.length)
    && ((List.range w.length).all fun j => w.contains j)
    && (w.all fun v => decide (v < w.length))

/-- Involutivity of a wire: `wire[wire[k]] == k` for every key `k`.  This is
the property rule D of `Reflector._wire_inspection` documents. -/
def involutiveWire (w : List Nat) : Bool :=
  (List.range w.length).all fun k => w.getD (w.getD k 0) 0 == k

/-- `Rotor.forward_reading`:
`(self._wire[(value + modifier) % self._length] - modifier) % self._length`. -/
def Rotor.forward_reading (r : Rotor) (value : Int) : Int :=
  ((r.wire.getD ((value + r.modifier) % (r.length : Int)).toNat 0 : Int)
      - r.modifier) % (r.length : Int)

/-- `Rotor.backward_reading`:
`(self._reverse_wire[(value + modifier) % self._length] - modifier) % self._length`,
with the reverse dict `{value: key}` embedded as `List.indexOf` (the wire has
been validated, so each value occurs exactly once). -/
def Rotor.backward_reading (r : Rotor) (value : Int) : Int :=
  ((r.wire.indexOf ((value + r.modifier) % (r.length : Int)).toNat : Int)
      - r.modifier) % (r.length : Int)

/-- `Rotor.is_in_turnover_position`: `self._position in self._turnovers`. -/
def Rotor.is_in_turnover_position (r : Rotor) : Bool :=
  r.turnovers.contains r.position

/-- `Rotor.can_rotate`: `self._rotation != "without"`. -/
def Rotor.can_rotate (r : Rotor) : Bool :=
  r.rotation != .without

/-- The value returned by `Rotor.turn`: the function is annotated `-> bool`,
but the `'without'` branch executes `return True, True`, which in Python
builds a 2-tuple.  The embedding keeps both shapes apart. -/
inductive TurnResult
  | bool (b : Bool)
  | pair (fst snd : Bool)
deriving DecidableEq, Repr

/-- Python truth value of a `TurnResult`: a bool is its own truth value; a
2-tuple is always truthy. -/
def TurnResult.truthy : TurnResult → Bool
  | .bool b => b
  | .pair _ _ => true

/-- Embedding of `Rotor.turn`.  `bool_` is the turnover test made before
moving; `position += 1` / `position -= 1` go through the `position` setter,
which reduces modulo the length; the `'without'` branch returns early with
`True, True` and leaves the position unchanged. -/
def Rotor.turn (r : Rotor) : Rotor × TurnResult :=
  let b := r.is_in_turnover_position
  match r.rotation with
  | .normal => ({ r with position := (r.position + 1) % r.length }, .bool b)
  | .reversed =>
      ({ r with position := (((r.position : Int) - 1) % (r.length : Int)).toNat }, .bool b)
  | .without => (r, .pair true true)

/-- The configuration dictionary returned by `Rotor.get_configuration`.
Note the source assigns `"position": self.offset` and
`"offset": self.position`. -/
structure RotorConfig where
  position : Nat
  offset : Nat
  turnovers : List Nat
  rotation : RotationMode
deriving DecidableEq, Repr

/-- `Rotor.get_configuration`: returns
`{"position": self.offset, "offset": self.position, "turnovers": ..., "rotation": ...}`. -/
def Rotor.get_configuration (r : Rotor) : RotorConfig :=
  { position := r.offset
    offset := r.position
    turnovers := r.turnovers
    rotation := r.rotation }

/-- Errors raised by `Rotor.__init__`: `wireError` stands for the
`TypeError` / `IndexError` / `NonLinearWire` / `AsymmetricWire` family raised
by `wire_inspection`, `valueError` for the `ValueError` raised by the
`offset` and `set_turnovers` setters. -/
inductive InitError
  | wireError
  | valueError
deriving DecidableEq, Repr

/-- Embedding of `Rotor.__init__` for a list-form wire: run
`wire_inspection`; set `position` through its setter (reduce modulo the
length); set `offset` through its setter (raise `ValueError` unless
`0 <= offset < length`); store the turnovers through `set_turnovers`
(raise `ValueError` unless each is `< length`). -/
def rotorInit (wire : List Nat) (offset position : Nat) (turnovers : List Nat)
    (rotation : RotationMode) (description : Option String) : Except InitError Rotor :=
  if wireInspection wire = false then .error .wireError
  else if wire.length ≤ offset then .error .valueError
  else if turnovers.any (fun t => wire.length ≤ t) then .error .valueError
  else .ok { wire := wire
             offset := offset
             position := position % wire.length
             turnovers := turnovers
             rotation := rotation
             description := description }

/-- Embedding of `Reflector(...)` construction (src/Reflector.py).
`Reflector` inherits `Rotor.__init__` unchanged, and `Rotor.__init__`
validates the wire by calling `self.wire_inspection(wire)`.  The `Reflector`
class only defines a method named `_wire_inspection` (note the leading
underscore) containing the involution check, and nothing in the package ever
calls `_wire_inspection`, so constructing a `Reflector` performs exactly the
`Rotor` checks. -/
def reflectorInit (wire : List Nat) (offset position : Nat) (turnovers : List Nat)
    (rotation : RotationMode) (description : Option String) : Except InitError Rotor :=
  rotorInit wire offset position turnovers rotation description

/-- `Rotor.copy` / `Rotor.__copy__`: `type(self)(**self.get_full_configuration())`,
where `get_full_configuration` is `get_configuration` plus the wire and the
description.  The keyword arguments therefore pass `position =
cfg["position"]` and `offset = cfg["offset"]` to the constructor. -/
def Rotor.copy (r : Rotor) : Except InitError Rotor :=
  rotorInit r.wire r.get_configuration.offset r.get_configuration.position
    r.get_configuration.turnovers r.get_configuration.rotation r.description

/-- Embedding of `EnigmaMachine` state (src/Enigma.py): `value_number`,
the rotor stack, the optional reflector, the entry wheel and the plugboard
dict. -/
structure EnigmaMachine where
  length : Nat
  rotors : List Rotor
  reflector : Option Rotor
  etw : Rotor
  plugboard : List (Nat × Nat)
deriving DecidableEq, Repr

/-- `EnigmaMachine.get_non_stationary_items`:
`[self._etw, *self._rotors[::-1], self._reflector] if self._reflector else self._rotors`,
filtered to the items whose `can_rotate()` is true. -/
def EnigmaMachine.get_non_stationary_items (m : EnigmaMachine) : List Rotor :=
  (match m.reflector with
   | some ukw => m.etw :: (m.rotors.reverse ++ [ukw])
   | none => m.rotors).filter Rotor.can_rotate

/-- The loop of `EnigmaMachine.turn`, run over the initial (unfiltered) item
list: items with `can_rotate() == false` are absent from
`get_non_stationary_items()` and hence never touched by the loop, which the
embedding renders by passing them through unchanged; for the others the loop
keeps the `next_can_turn` flag, enters the body when `next_can_turn or
item.is_in_turnover_position()`, replaces the flag by the truth value of
`item.turn()`, and breaks (leaving every later item unchanged) as soon as the
flag is falsy. -/
def turnItems : Bool → List Rotor → List Rotor
  | _, [] => []
  | nct, r :: rest =>
    if r.can_rotate then
      if nct || r.is_in_turnover_position then
        if ((r.turn).2).truthy then (r.turn).1 :: turnItems ((r.turn).2).truthy rest
        else (r.turn).1 :: rest
      else r :: rest
    else r :: turnItems nct rest

/-- `EnigmaMachine.turn`: step the items of `get_non_stationary_items()`
in place.  The embedding runs the loop over the full initial list (see
`turnItems`) and writes the stepped items back into their slots. -/
def EnigmaMachine.turn (m : EnigmaMachine) : EnigmaMachine :=
  match m.reflector with
  | some ukw =>
    let stepped := turnItems true (m.etw :: (m.rotors.reverse ++ [ukw]))
    { m with
      etw := stepped.headD m.etw
      rotors := ((stepped.drop 1).take m.rotors.length).reverse
      reflector := some ((stepped.drop (1 + m.rotors.length)).headD ukw) }
  | none => { m with rotors := turnItems true m.rotors }

/-- `EnigmaMachine._read_plugboard`: return `self._plugboard[index]` when
present, else `index`. -/
def readPlugboard (pb : List (Nat × Nat)) (index : Nat) : Nat :=
  match pb.lookup index with
  | some v => v
  | none => index

/-- `EnigmaMachine._read_forward`: the entry wheel, then the rotors in
reversed load order (`self._rotors[::-1]`), each through `forward_reading`. -/
def EnigmaMachine.read_forward (m : EnigmaMachine) (index : Int) : Int :=
  m.rotors.reverse.foldl (fun i r => r.forward_reading i) (m.etw.forward_reading index)

/-- `EnigmaMachine._read_backward`: the rotors in load order, then the entry
wheel, each through `backward_reading`. -/
def EnigmaMachine.read_backward (m : EnigmaMachine) (index : Int) : Int :=
  m.etw.backward_reading (m.rotors.foldl (fun i r => r.backward_reading i) index)

/-- `EnigmaMachine._read_reflector`: `backward_reading` when decoding, else
`forward_reading`.  `encode` only calls this after checking that a reflector
is loaded; the `none` case is unreachable there (Python would raise
`AttributeError`). -/
def EnigmaMachine.read_reflector (m : EnigmaMachine) (index : Int)
    (is_a_decoding : Bool) : Int :=
  match m.reflector with
  | some ukw => if is_a_decoding then ukw.backward_reading index else ukw.forward_reading index
  | none => index

/-- Errors raised by `EnigmaMachine.encode`: `NoRotorError`,
`NoReflectorError`, and the `ValueError` of `translate_in_integer` for a
value outside `[0, n)` (with the default identity translator). -/
inductive EncodeError
  | noRotor
  | noReflector
  | outOfRange
deriving DecidableEq, Repr

/-- Embedding of `EnigmaMachine.encode` for a single integer value, with the
default identity translator and `translate_output` left at its default (the
identity on machine outputs) and `is_a_decoding=False`.  The pair returned
carries the machine state after the call next to the result or error: all
three errors are raised before `self.turn()` runs, so the machine is
unchanged on the error paths. -/
def EnigmaMachine.encode (m : EnigmaMachine) (value : Nat) :
    EnigmaMachine × Except EncodeError Nat :=
  if m.rotors.length ≤ 0 then (m, .error .noRotor)
  else if m.reflector.isNone then (m, .error .noReflector)
  else if m.length ≤ value then (m, .error .outOfRange)
  else
    let v1 := readPlugboard m.plugboard value
    let m' := m.turn
    let v2 := m'.read_forward (v1 : Int)
    let v3 := m'.read_reflector v2 false
    let v4 := m'.read_backward v3
    (m', .ok (readPlugboard m.plugboard v4.toNat))

/-- `EnigmaMachine._rotor_index_finder` for an integer argument: the negative
branch computes `len(self._rotors) - rotor_index`, and indices failing
`0 <= idx < len(self._rotors)` raise `ValueError`. -/
def rotorIndexFinder (numRotors : Nat) (rotor_index : Int) : Except Unit Nat :=
  let idx := if rotor_index < 0 then (numRotors : Int) - rotor_index else rotor_index
  if 0 ≤ idx ∧ idx < (numRotors : Int) then .ok idx.toNat else .error ()

/-- Errors raised by `EnigmaMachine.plug` / `unplug`:
`alreadyConnected v` is the `KeyError` for a value already in the plugboard,
`outOfRange v` the `ValueError` of `translate_in_integer`, `arity` the
`TypeError` Python raises when the recursive `self.plug(*others_values)` call
receives fewer positional arguments than required. -/
inductive PlugError
  | alreadyConnected (v : Nat)
  | outOfRange (v : Nat)
  | arity
deriving DecidableEq, Repr

/-- Python dict assignment `d[k] = v`: update the entry in place when the key
is present, append it otherwise. -/
def dictInsert (pb : List (Nat × Nat)) (k v : Nat) : List (Nat × Nat) :=
  if (pb.lookup k).isSome then pb.map fun p => if p.1 = k then (k, v) else p
  else pb ++ [(k, v)]

/-- Python dict deletion `del d[k]`. -/
def dictErase (pb : List (Nat × Nat)) (k : Nat) : List (Nat × Nat) :=
  pb.filter fun p => p.1 != k

/-- Embedding of `EnigmaMachine.plug(first_value, second_value, *others_values)`
over the argument list, for a machine of length `n` with the default identity
translator.  Mirrors the source's order: the recursive call on
`others_values` runs FIRST and its mutations persist; then the two values are
translated; then the already-plugged checks run (with the exact-match
tolerance); only then is the plugboard dict mutated.  The returned pair is
the plugboard after the call next to the error, if any. -/
def plug (n : Nat) (pb : List (Nat × Nat)) :
    List Nat → List (Nat × Nat) × Option PlugError
  | a :: b :: others =>
    match (if others.isEmpty then (pb, none) else plug n pb others) with
    | (pb1, some e) => (pb1, some e)
    | (pb1, none) =>
      if n ≤ a then (pb1, some (.outOfRange a))
      else if n ≤ b then (pb1, some (.outOfRange b))
      else if (pb1.lookup a).isSome then
        if pb1.lookup a = some b then (pb1, none)
        else (pb1, some (.alreadyConnected a))
      else if (pb1.lookup b).isSome then (pb1, some (.alreadyConnected b))
      else (dictInsert (dictInsert pb1 a b) b a, none)
  | _ => (pb, some .arity)

/-- Embedding of `EnigmaMachine.unplug(value, *others_values)`: the recursive
call on `others_values` runs first; then the value is translated; an
unplugged value is a no-op; otherwise both the value and its partner are
deleted from the dict. -/
def unplug (n : Nat) (pb : List (Nat × Nat)) :
    List Nat → List (Nat × Nat) × Option PlugError
  | v :: others =>
    match (if others.isEmpty then (pb, none) else unplug n pb others) with
    | (pb1, some e) => (pb1, some e)
    | (pb1, none) =>
      if n ≤ v then (pb1, some (.outOfRange v))
      else
        match pb1.lookup v with
        | none => (pb1, none)
        | some w => (dictErase (dictErase pb1 v) w, none)
  | [] => (pb, some .arity)

/-- Plugboard states reachable by sequences of successful `plug` / `unplug`
calls on a machine of length `n`, starting from the empty plugboard created
by `EnigmaMachine.__init__`. -/
inductive ReachablePB (n : Nat) : List (Nat × Nat) → Prop
  | empty : ReachablePB n []
  | plugStep (pb pb' : List (Nat × Nat)) (args : List Nat) :
      ReachablePB n pb → plug n pb args = (pb', none) → ReachablePB n pb'
  | unplugStep (pb pb' : List (Nat × Nat)) (args : List Nat) :
      ReachablePB n pb → unplug n pb args = (pb', none) → ReachablePB n pb'

/-- The stepping cycle as claim C5 words it: visit
`[entry_wheel, *reversed(rotor_stack), reflector]` filtered to the elements
that can step; the first element always steps; each later element steps iff
the previous visited element's `step()` returned propagation or the element
itself is sitting on a turnover position (checked before stepping); the
cycle stops at the first element that does not step. -/
def turnClaimItems : Bool → List Rotor → List Rotor
  | _, [] => []
  | prev, r :: rest =>
    if prev || r.is_in_turnover_position then
      (r.turn).1 :: turnClaimItems ((r.turn).2).truthy rest
    else r :: rest

/-! ## Concrete instances used by witnesses and counterexamples -/

/-- A 3-symbol machine for the C1 witness: one normal rotor, an involutive
reflector, the default identity entry wheel, one plugboard pair. -/
def c1Machine : EnigmaMachine :=
  { length := 3
    rotors := [{ wire := [1, 2, 0], position := 0, offset := 1, turnovers := [2],
                 rotation := .normal }]
    reflector := some { wire := [1, 0, 2], rotation := .without }
    etw := { wire := [0, 1, 2], rotation := .without }
    plugboard := [(0, 2), (2, 0)] }

/-- A rotor with `rotation='without'` sitting on a turnover position, for the
C4 evaluation. -/
def c4Rotor : Rotor :=
  { wire := [1, 0], position := 0, turnovers := [0], rotation := .without }

/-- A 2-symbol machine for the C5 counterexample: two normal rotors, loaded
order `[first, second]`; the first-loaded rotor sits on its turnover
position, the second-loaded one does not. -/
def c5Machine : EnigmaMachine :=
  { length := 2
    rotors := [{ wire := [0, 1], position := 0, turnovers := [0], rotation := .normal },
               { wire := [0, 1], position := 0, turnovers := [], rotation := .normal }]
    reflector := some { wire := [1, 0], rotation := .without }
    etw := { wire := [0, 1], rotation := .without }
    plugboard := [] }

/-- A machine with no rotors, for the C9 witness. -/
def c9MachineNoRotor : EnigmaMachine :=
  { length := 2
    rotors := []
    reflector := some { wire := [1, 0], rotation := .without }
    etw := { wire := [0, 1], rotation := .without }
    plugboard := [] }

/-- A machine with one rotor and no reflector, for the C9 witness. -/
def c9MachineNoReflector : EnigmaMachine :=
  { length := 2
    rotors := [{ wire := [0, 1], rotation := .normal }]
    reflector := none
    etw := { wire := [0, 1], rotation := .without }
    plugboard := [] }

/-! ## Association-list lemmas for the plugboard dict -/

theorem lookup_cons (a k v : Nat) (t : List (Nat × Nat)) :
    List.lookup a ((k, v) :: t) = if a = k then some v else List.lookup a t := by
  by_cases h : a = k
  · simp [List.lookup, h]
  · have hb : (a == k) = false := beq_eq_false_iff_ne.2 h
    simp [List.lookup, hb, h]

theorem lookup_none_iff (a : Nat) (pb : List (Nat × Nat)) :
    List.lookup a pb = none ↔ ∀ p ∈ pb, p.1 ≠ a := by
  induction pb with
  | nil => simp
  | cons p t ih =>
    rcases p with ⟨k, v⟩
    rw [lookup_cons]
    by_cases h : a = k
    · simp [h]
    · simp [h, ih, Ne.symm h]

theorem lookup_append_of_some (a b : Nat) (l₁ l₂ : List (Nat × Nat))
    (h : List.lookup a l₁ = some b) : List.lookup a (l₁ ++ l₂) = some b := by
  induction l₁ with
  | nil => simp at h
  | cons p t ih =>
    rcases p with ⟨k, v⟩
    rw [lookup_cons] at h
    rw [List.cons_append, lookup_cons]
    by_cases hk : a = k
    · simpa [hk] using h
    · rw [if_neg hk]; rw [if_neg hk] at h; exact ih h

theorem lookup_append_of_none (a : Nat) (l₁ l₂ : List (Nat × Nat))
    (h : List.lookup a l₁ = none) : List.lookup a (l₁ ++ l₂) = List.lookup a l₂ := by
  induction l₁ with
  | nil => simp
  | cons p t ih =>
    rcases p with ⟨k, v⟩
    rw [lookup_cons] at h
    rw [List.cons_append, lookup_cons]
    by_cases hk : a = k
    · simp [hk] at h
    · rw [if_neg hk]; rw [if_neg hk] at h; exact ih h

theorem lookup_dictErase (a k : Nat) (pb : List (Nat × Nat)) :
    List.lookup a (dictErase pb k) = if a = k then none else List.lookup a pb := by
  induction pb with
  | nil => simp [dictErase]
  | cons p t ih =>
    rcases p with ⟨k', v⟩
    by_cases hk : k' = k
    · have : dictErase ((k', v) :: t) k = dictErase t k := by
        simp [dictErase, hk]
      rw [this, ih, lookup_cons]
      by_cases ha : a = k
      · simp [ha]
      · rw [if_neg ha, if_neg ha, if_neg (by omega : ¬ a = k')]
    · have : dictErase ((k', v) :: t) k = (k', v) :: dictErase t k := by
        simp [dictErase, hk]
      rw [this, lookup_cons, lookup_cons, ih]
      by_cases ha : a = k'
      · have hak : ¬ a = k := by omega
        simp [ha, hak, hk]
      · rw [if_neg ha, if_neg ha]

/-- Symmetry of a plugboard dict: every stored pair is stored in both
directions.  This is the invariant `plug` and `unplug` maintain. -/
def PlugboardSym (pb : List (Nat × Nat)) : Prop :=
  ∀ a b : Nat, List.lookup a pb = some b → List.lookup b pb = some a

theorem plugboardSym_nil : PlugboardSym [] := by
  intro a b h
  simp at h

theorem dictInsert_of_not_mem (pb : List (Nat × Nat)) (a b : Nat)
    (h : List.lookup a pb = none) : dictInsert pb a b = pb ++ [(a, b)] := by
  simp [dictInsert, h]

theorem plug_pair_eq_self (pb : List (Nat × Nat)) (a : Nat)
    (ha : List.lookup a pb = none) :
    dictInsert (dictInsert pb a a) a a = pb ++ [(a, a)] := by
  rw [dictInsert_of_not_mem pb a a ha]
  have hsome : (List.lookup a (pb ++ [(a, a)])).isSome := by
    rw [lookup_append_of_none _ _ _ ha, lookup_cons]
    simp
  rw [dictInsert, if_pos hsome, List.map_append]
  have h1 : pb.map (fun p => if p.1 = a then (a, a) else p) = pb := by
    have := (lookup_none_iff a pb).1 ha
    calc pb.map (fun p => if p.1 = a then (a, a) else p)
        = pb.map id := List.map_congr_left (fun p hp => by
            simp [this p hp])
      _ = pb := List.map_id pb
  rw [h1]
  simp

theorem plug_pair_eq (pb : List (Nat × Nat)) (a b : Nat) (hab : a ≠ b)
    (ha : List.lookup a pb = none) (hb : List.lookup b pb = none) :
    dictInsert (dictInsert pb a b) b a = pb ++ [(a, b), (b, a)] := by
  rw [dictInsert_of_not_mem pb a b ha]
  have hnone : List.lookup b (pb ++ [(a, b)]) = none := by
    rw [lookup_append_of_none _ _ _ hb, lookup_cons]
    simp [Ne.symm hab]
  rw [dictInsert_of_not_mem _ _ _ hnone, List.append_assoc]
  rfl

theorem plugboardSym_append_self (pb : List (Nat × Nat)) (a : Nat)
    (hsym : PlugboardSym pb) (ha : List.lookup a pb = none) :
    PlugboardSym (pb ++ [(a, a)]) := by
  intro x y h
  rcases hx : List.lookup x pb with _ | x'
  · rw [lookup_append_of_none _ _ _ hx, lookup_cons] at h
    by_cases hxa : x = a
    · subst hxa
      rw [if_pos rfl] at h
      injection h with h2
      subst h2
      rw [lookup_append_of_none _ _ _ ha, lookup_cons]
      simp
    · simp [hxa] at h
  · rw [lookup_append_of_some _ _ _ _ hx] at h
    injection h with h2
    subst h2
    exact lookup_append_of_some _ _ _ _ (hsym x x' hx)

theorem plugboardSym_append_pair (pb : List (Nat × Nat)) (a b : Nat) (hab : a ≠ b)
    (hsym : PlugboardSym pb) (ha : List.lookup a pb = none)
    (hb : List.lookup b pb = none) : PlugboardSym (pb ++ [(a, b), (b, a)]) := by
  intro x y h
  rcases hx : List.lookup x pb with _ | x'
  · rw [lookup_append_of_none _ _ _ hx, lookup_cons] at h
    by_cases hxa : x = a
    · rw [if_pos hxa] at h
      injection h with h2
      subst h2
      rw [lookup_append_of_none _ _ _ hb, lookup_cons, if_neg (Ne.symm hab), lookup_cons]
      simp [hxa]
    · rw [if_neg hxa, lookup_cons] at h
      by_cases hxb : x = b
      · rw [if_pos hxb] at h
        injection h with h2
        subst h2
        rw [lookup_append_of_none _ _ _ ha, lookup_cons]
        simp [hxb]
      · simp [hxb] at h
  · rw [lookup_append_of_some _ _ _ _ hx] at h
    injection h with h2
    subst h2
    exact lookup_append_of_some _ _ _ _ (hsym x x' hx)

theorem plugboardSym_erase2 (pb : List (Nat × Nat)) (v w : Nat)
    (hsym : PlugboardSym pb) (hv : List.lookup v pb = some w) :
    PlugboardSym (dictErase (dictErase pb v) w) := by
  intro x y h
  rw [lookup_dictErase, lookup_dictErase] at h
  by_cases hxw : x = w
  · simp [hxw] at h
  · rw [if_neg hxw] at h
    by_cases hxv : x = v
    · simp [hxv] at h
    · rw [if_neg hxv] at h
      have hy : List.lookup y pb = some x := hsym x y h
      have hyv : y ≠ v := by
        intro hcon
        rw [hcon, hv] at hy
        exact hxw (by simpa using hy.symm)
      have hyw : y ≠ w := by
        intro hcon
        have hwv : List.lookup w pb = some v := hsym v w hv
        rw [hcon, hwv] at hy
        exact hxv (by simpa using hy.symm)
      rw [lookup_dictErase, lookup_dictErase, if_neg hyw, if_neg hyv]
      exact hy

theorem plug_preserves_sym (n : Nat) :
    ∀ (args : List Nat) (pb pb' : List (Nat × Nat)),
      PlugboardSym pb → plug n pb args = (pb', none) → PlugboardSym pb'
  | [], _, _, _, h => by simp [plug] at h
  | [_], _, _, _, h => by simp [plug] at h
  | a :: b :: others, pb, pb', hsym, h => by
    rw [plug] at h
    rcases hrec : (if others.isEmpty then (pb, none) else plug n pb others) with ⟨pb1, err⟩
    rw [hrec] at h
    have hsym1 : err = none → PlugboardSym pb1 := by
      intro herr
      rw [herr] at hrec
      by_cases hoe : others.isEmpty
      · rw [if_pos hoe] at hrec
        obtain rfl : pb = pb1 := congrArg Prod.fst hrec
        exact hsym
      · rw [if_neg hoe] at hrec
        exact plug_preserves_sym n others pb pb1 hsym hrec
    match err with
    | some e => simp at h
    | none =>
      have hsym1 := hsym1 rfl
      simp only at h
      by_cases h1 : n ≤ a
      · simp [h1] at h
      rw [if_neg h1] at h
      by_cases h2 : n ≤ b
      · simp [h2] at h
      rw [if_neg h2] at h
      by_cases h3 : (List.lookup a pb1).isSome
      · rw [if_pos h3] at h
        by_cases h4 : List.lookup a pb1 = some b
        · rw [if_pos h4] at h
          obtain rfl : pb1 = pb' := by simpa using congrArg Prod.fst h
          exact hsym1
        · simp [h4] at h
      · rw [if_neg h3] at h
        by_cases h5 : (List.lookup b pb1).isSome
        · simp [h5] at h
        rw [if_neg h5] at h
        obtain rfl : dictInsert (dictInsert pb1 a b) b a = pb' := by
          simpa using congrArg Prod.fst h
        have ha : List.lookup a pb1 = none := by
          rcases hcase : List.lookup a pb1 with _ | _
          · rfl
          · rw [hcase] at h3; simp at h3
        have hb : List.lookup b pb1 = none := by
          rcases hcase : List.lookup b pb1 with _ | _
          · rfl
          · rw [hcase] at h5; simp at h5
        by_cases hab : a = b
        · subst hab
          rw [plug_pair_eq_self pb1 a ha]
          exact plugboardSym_append_self pb1 a hsym1 ha
        · rw [plug_pair_eq pb1 a b hab ha hb]
          exact plugboardSym_append_pair pb1 a b hab hsym1 ha hb

theorem unplug_preserves_sym (n : Nat) :
    ∀ (args : List Nat) (pb pb' : List (Nat × Nat)),
      PlugboardSym pb → unplug n pb args = (pb', none) → PlugboardSym pb'
  | [], _, _, _, h => by simp [unplug] at h
  | v :: others, pb, pb', hsym, h => by
    rw [unplug] at h
    rcases hrec : (if others.isEmpty then (pb, none) else unplug n pb others) with ⟨pb1, err⟩
    rw [hrec] at h
    have hsym1 : err = none → PlugboardSym pb1 := by
      intro herr
      rw [herr] at hrec
      by_cases hoe : others.isEmpty
      · rw [if_pos hoe] at hrec
        obtain rfl : pb = pb1 := congrArg Prod.fst hrec
        exact hsym
      · rw [if_neg hoe] at hrec
        exact unplug_preserves_sym n others pb pb1 hsym hrec
    match err with
    | some e => simp at h
    | none =>
      have hsym1 := hsym1 rfl
      simp only at h
      by_cases h1 : n ≤ v
      · simp [h1] at h
      rw [if_neg h1] at h
      rcases hv : List.lookup v pb1 with _ | w
      · rw [hv] at h
        obtain rfl : pb1 = pb' := by simpa using congrArg Prod.fst h
        exact hsym1
      · rw [hv] at h
        obtain rfl : dictErase (dictErase pb1 v) w = pb' := by
          simpa using congrArg Prod.fst h
        exact plugboardSym_erase2 pb1 v w hsym1 hv

theorem reachable_sym (n : Nat) (pb : List (Nat × Nat)) (h : ReachablePB n pb) :
    PlugboardSym pb := by
  induction h with
  | empty => exact plugboardSym_nil
  | plugStep pb0 pb1 args _ hstep ih => exact plug_preserves_sym n args pb0 pb1 ih hstep
  | unplugStep pb0 pb1 args _ hstep ih => exact unplug_preserves_sym n args pb0 pb1 ih hstep

theorem sym_swap_involutive (pb : List (Nat × Nat)) (hsym : PlugboardSym pb)
    (x : Nat) : readPlugboard pb (readPlugboard pb x) = x := by
  unfold readPlugboard
  rcases h : List.lookup x pb with _ | b
  · rw [h]
  · rw [hsym x b h]

/-! ## Modular-arithmetic helpers -/

theorem int_emod_sub_emod (a b L : Int) : (a % L - b) % L = (a - b) % L := by
  conv_rhs => rw [Int.sub_emod]
  rw [Int.sub_emod (a % L) b, Int.emod_emod_of_dvd _ dvd_rfl]

theorem emod_shift_cancel (X m L : Int) (h0 : 0 ≤ X) (h : X < L) :
    ((X - m) % L + m) % L = X := by
  rw [Int.emod_add_emod, sub_add_cancel, Int.emod_eq_of_lt h0 h]

theorem emod_unshift (v m L : Int) (h0 : 0 ≤ v) (h : v < L) :
    ((v + m) % L - m) % L = v := by
  rw [int_emod_sub_emod, add_sub_cancel_right, Int.emod_eq_of_lt h0 h]

/-! ## Wire-validity lemmas -/

theorem wireInspection_two_le (w : List Nat) (hw : wireInspection w = true) :
    2 ≤ w.length := by
  simp [wireInspection] at hw
  exact hw.1.1

theorem wire_mem_of_lt (w : List Nat) (hw : wireInspection w = true)
    (j : Nat) (hj : j < w.length) : j ∈ w := by
  simp [wireInspection] at hw
  exact hw.1.2 j hj

theorem wire_val_lt (w : List Nat) (hw : wireInspection w = true)
    (v : Nat) (hv : v ∈ w) : v < w.length := by
  simp [wireInspection] at hw
  exact hw.2 v hv

theorem wire_nodup (w : List Nat) (hw : wireInspection w = true) : w.Nodup := by
  have hset : w.toFinset = Finset.range w.length := by
    ext x
    simp only [List.mem_toFinset, Finset.mem_range]
    exact ⟨wire_val_lt w hw x, wire_mem_of_lt w hw x⟩
  have hcard : w.dedup.length = w.length := by
    rw [← List.card_toFinset, hset, Finset.card_range]
  have heq : w.dedup = w := (List.dedup_sublist w).eq_of_length hcard
  rw [← heq]
  exact List.nodup_dedup w

theorem wire_getD_mem (w : List Nat) (k : Nat) (hk : k < w.length) :
    w.getD k 0 ∈ w := by
  rw [List.getD_eq_getElem w 0 hk]
  exact List.getElem_mem hk

theorem wire_indexOf_getD (w : List Nat) (hw : wireInspection w = true)
    (k : Nat) (hk : k < w.length) : w.indexOf (w.getD k 0) = k := by
  rw [List.getD_eq_getElem w 0 hk]
  exact List.indexOf_getElem (wire_nodup w hw) k hk

theorem wire_getD_indexOf (w : List Nat) (j : Nat) (hj : j ∈ w) :
    w.getD (w.indexOf j) 0 = j := by
  have hlt := List.indexOf_lt_length.2 hj
  rw [List.getD_eq_getElem w 0 hlt]
  exact List.getElem_indexOf hlt

theorem involutive_getD (w : List Nat) (hinv : involutiveWire w = true)
    (k : Nat) (hk : k < w.length) : w.getD (w.getD k 0) 0 = k := by
  simp only [involutiveWire, List.all_eq_true, List.mem_range] at hinv
  simpa using hinv k hk

/-! ## Per-rotor reading lemmas -/

theorem forward_reading_range (r : Rotor) (hn : 0 < r.wire.length) (v : Int) :
    0 ≤ r.forward_reading v ∧ r.forward_reading v < (r.wire.length : Int) := by
  have hpos : (0 : Int) < (r.wire.length : Int) := by exact_mod_cast hn
  unfold Rotor.forward_reading Rotor.length
  exact ⟨Int.emod_nonneg _ (ne_of_gt hpos), Int.emod_lt_of_pos _ hpos⟩

theorem backward_reading_range (r : Rotor) (hn : 0 < r.wire.length) (v : Int) :
    0 ≤ r.backward_reading v ∧ r.backward_reading v < (r.wire.length : Int) := by
  have hpos : (0 : Int) < (r.wire.length : Int) := by exact_mod_cast hn
  unfold Rotor.backward_reading Rotor.length
  exact ⟨Int.emod_nonneg _ (ne_of_gt hpos), Int.emod_lt_of_pos _ hpos⟩

theorem backward_forward_reading (r : Rotor) (hw : wireInspection r.wire = true)
    (v : Int) (h0 : 0 ≤ v) (hv : v < (r.wire.length : Int)) :
    r.backward_reading (r.forward_reading v) = v := by
  have hn : 0 < r.wire.length := lt_of_lt_of_le (by norm_num) (wireInspection_two_le _ hw)
  have hpos : (0 : Int) < (r.wire.length : Int) := by exact_mod_cast hn
  have hne := ne_of_gt hpos
  set L : Int := (r.wire.length : Int) with hL
  set m : Int := r.modifier with hm
  have hk0 : 0 ≤ (v + m) % L := Int.emod_nonneg _ hne
  have hklt : (v + m) % L < L := Int.emod_lt_of_pos _ hpos
  set k : Nat := ((v + m) % L).toNat with hkdef
  have hkcast : (k : Int) = (v + m) % L := Int.toNat_of_nonneg hk0
  have hkn : k < r.wire.length := by
    have := (Int.toNat_lt hk0 (n := r.wire.length)).2 hklt
    exact this
  set val : Nat := r.wire.getD k 0 with hvaldef
  have hvalmem : val ∈ r.wire := wire_getD_mem r.wire k hkn
  have hvallt : val < r.wire.length := wire_val_lt r.wire hw val hvalmem
  have hval0 : (0 : Int) ≤ (val : Int) := Int.natCast_nonneg val
  have hvalL : (val : Int) < L := by rw [hL]; exact_mod_cast hvallt
  have hfwd : r.forward_reading v = ((val : Int) - m) % L := by
    unfold Rotor.forward_reading Rotor.length
    rw [← hm, ← hL, ← hkdef, ← hvaldef]
  unfold Rotor.backward_reading Rotor.length
  rw [← hm, ← hL, hfwd, emod_shift_cancel _ m L hval0 hvalL]
  have htn : ((val : Int)).toNat = val := Int.toNat_natCast val
  rw [htn, hvaldef, wire_indexOf_getD r.wire hw k hkn, hkcast,
    emod_unshift v m L h0 hv]

theorem forward_backward_reading (r : Rotor) (hw : wireInspection r.wire = true)
    (v : Int) (h0 : 0 ≤ v) (hv : v < (r.wire.length : Int)) :
    r.forward_reading (r.backward_reading v) = v := by
  have hn : 0 < r.wire.length := lt_of_lt_of_le (by norm_num) (wireInspection_two_le _ hw)
  have hpos : (0 : Int) < (r.wire.length : Int) := by exact_mod_cast hn
  have hne := ne_of_gt hpos
  set L : Int := (r.wire.length : Int) with hL
  set m : Int := r.modifier with hm
  have hj0 : 0 ≤ (v + m) % L := Int.emod_nonneg _ hne
  have hjlt : (v + m) % L < L := Int.emod_lt_of_pos _ hpos
  set j : Nat := ((v + m) % L).toNat with hjdef
  have hjcast : (j : Int) = (v + m) % L := Int.toNat_of_nonneg hj0
  have hjn : j < r.wire.length := (Int.toNat_lt hj0 (n := r.wire.length)).2 hjlt
  have hjmem : j ∈ r.wire := wire_mem_of_lt r.wire hw j hjn
  set idx : Nat := r.wire.indexOf j with hidxdef
  have hidxn : idx < r.wire.length := List.indexOf_lt_length.2 hjmem
  have hidx0 : (0 : Int) ≤ (idx : Int) := Int.natCast_nonneg idx
  have hidxL : (idx : Int) < L := by rw [hL]; exact_mod_cast hidxn
  have hbwd : r.backward_reading v = ((idx : Int) - m) % L := by
    unfold Rotor.backward_reading Rotor.length
    rw [← hm, ← hL, ← hjdef, ← hidxdef]
  unfold Rotor.forward_reading Rotor.length
  rw [← hm, ← hL, hbwd, emod_shift_cancel _ m L hidx0 hidxL]
  have htn : ((idx : Int)).toNat = idx := Int.toNat_natCast idx
  rw [htn, hidxdef, wire_getD_indexOf r.wire j hjmem, hjcast,
    emod_unshift v m L h0 hv]

theorem forward_forward_involutive (r : Rotor) (hw : wireInspection r.wire = true)
    (hinv : involutiveWire r.wire = true)
    (v : Int) (h0 : 0 ≤ v) (hv : v < (r.wire.length : Int)) :
    r.forward_reading (r.forward_reading v) = v := by
  have hn : 0 < r.wire.length := lt_of_lt_of_le (by norm_num) (wireInspection_two_le _ hw)
  have hpos : (0 : Int) < (r.wire.length : Int) := by exact_mod_cast hn
  have hne := ne_of_gt hpos
  set L : Int := (r.wire.length : Int) with hL
  set m : Int := r.modifier with hm
  have hk0 : 0 ≤ (v + m) % L := Int.emod_nonneg _ hne
  have hklt : (v + m) % L < L := Int.emod_lt_of_pos _ hpos
  set k : Nat := ((v + m) % L).toNat with hkdef
  have hkcast : (k : Int) = (v + m) % L := Int.toNat_of_nonneg hk0
  have hkn : k < r.wire.length := (Int.toNat_lt hk0 (n := r.wire.length)).2 hklt
  set val : Nat := r.wire.getD k 0 with hvaldef
  have hvalmem : val ∈ r.wire := wire_getD_mem r.wire k hkn
  have hvallt : val < r.wire.length := wire_val_lt r.wire hw val hvalmem
  have hval0 : (0 : Int) ≤ (val : Int) := Int.natCast_nonneg val
  have hvalL : (val : Int) < L := by rw [hL]; exact_mod_cast hvallt
  have hfwd : r.forward_reading v = ((val : Int) - m) % L := by
    unfold Rotor.forward_reading Rotor.length
    rw [← hm, ← hL, ← hkdef, ← hvaldef]
  conv_lhs => rw [hfwd]
  unfold Rotor.forward_reading Rotor.length
  rw [← hm, ← hL, emod_shift_cancel _ m L hval0 hvalL]
  have htn : ((val : Int)).toNat = val := Int.toNat_natCast val
  rw [htn, hvaldef, involutive_getD r.wire hinv k hkn, hkcast,
    emod_unshift v m L h0 hv]

/-! ## Signal-path chain lemmas -/

/-- All rotors of a list have passed `wire_inspection` and share the machine
length `n` (the `is_compatible` check of `load_rotor`). -/
def RotorsOK (n : Nat) (rs : List Rotor) : Prop :=
  ∀ r ∈ rs, wireInspection r.wire = true ∧ r.wire.length = n

theorem rotorsOK_reverse (n : Nat) (rs : List Rotor) (h : RotorsOK n rs) :
    RotorsOK n rs.reverse := by
  intro r hr
  exact h r (List.mem_reverse.1 hr)

theorem foldl_forward_range (n : Nat) (hn : 0 < n) :
    ∀ (rs : List Rotor), RotorsOK n rs → ∀ v : Int, 0 ≤ v → v < (n : Int) →
      0 ≤ rs.foldl (fun i r => r.forward_reading i) v ∧
        rs.foldl (fun i r => r.forward_reading i) v < (n : Int)
  | [], _, v, h0, hv => ⟨h0, hv⟩
  | r :: rest, hOK, v, h0, hv => by
    have hr := hOK r (List.mem_cons_self r rest)
    have hrange := forward_reading_range r (hr.2 ▸ hn) v
    rw [List.foldl_cons]
    exact foldl_forward_range n hn rest
      (fun s hs => hOK s (List.mem_cons_of_mem r hs)) _
      hrange.1 (by rw [← hr.2]; exact hrange.2)

theorem foldl_backward_range (n : Nat) (hn : 0 < n) :
    ∀ (rs : List Rotor), RotorsOK n rs → ∀ v : Int, 0 ≤ v → v < (n : Int) →
      0 ≤ rs.foldl (fun i r => r.backward_reading i) v ∧
        rs.foldl (fun i r => r.backward_reading i) v < (n : Int)
  | [], _, v, h0, hv => ⟨h0, hv⟩
  | r :: rest, hOK, v, h0, hv => by
    have hr := hOK r (List.mem_cons_self r rest)
    have hrange := backward_reading_range r (hr.2 ▸ hn) v
    rw [List.foldl_cons]
    exact foldl_backward_range n hn rest
      (fun s hs => hOK s (List.mem_cons_of_mem r hs)) _
      hrange.1 (by rw [← hr.2]; exact hrange.2)

theorem foldl_backward_foldl_forward (n : Nat) (hn : 0 < n) :
    ∀ (rs : List Rotor), RotorsOK n rs → ∀ v : Int, 0 ≤ v → v < (n : Int) →
      List.foldl (fun i r => r.backward_reading i)
        (List.foldl (fun i r => r.forward_reading i) v rs.reverse) rs = v
  | [], _, v, _, _ => rfl
  | r :: rest, hOK, v, h0, hv => by
    have hr := hOK r (List.mem_cons_self r rest)
    have hrest : RotorsOK n rest := fun s hs => hOK s (List.mem_cons_of_mem r hs)
    rw [List.reverse_cons, List.foldl_append]
    have hFrs := foldl_forward_range n hn rest.reverse (rotorsOK_reverse n rest hrest) v h0 hv
    set Frs : Int := List.foldl (fun i r => r.forward_reading i) v rest.reverse with hFrsdef
    have h1 : List.foldl (fun i r => r.forward_reading i) Frs [r] = r.forward_reading Frs := rfl
    rw [h1, List.foldl_cons]
    have h2 : r.backward_reading (r.forward_reading Frs) = Frs :=
      backward_forward_reading r hr.1 Frs hFrs.1 (by rw [hr.2]; exact hFrs.2)
    rw [h2, hFrsdef]
    exact foldl_backward_foldl_forward n hn rest hrest v h0 hv

theorem foldl_forward_foldl_backward (n : Nat) (hn : 0 < n) :
    ∀ (rs : List Rotor), RotorsOK n rs → ∀ v : Int, 0 ≤ v → v < (n : Int) →
      List.foldl (fun i r => r.forward_reading i)
        (List.foldl (fun i r => r.backward_reading i) v rs) rs.reverse = v
  | [], _, v, _, _ => rfl
  | r :: rest, hOK, v, h0, hv => by
    have hr := hOK r (List.mem_cons_self r rest)
    have hrest : RotorsOK n rest := fun s hs => hOK s (List.mem_cons_of_mem r hs)
    rw [List.reverse_cons, List.foldl_append]
    have hB := backward_reading_range r (hr.2 ▸ hn) v
    have hIH := foldl_forward_foldl_backward n hn rest hrest (r.backward_reading v)
      hB.1 (by rw [← hr.2]; exact hB.2)
    have hbstep : List.foldl (fun i r => r.backward_reading i) v (r :: rest)
        = List.foldl (fun i r => r.backward_reading i) (r.backward_reading v) rest := rfl
    rw [hbstep, hIH]
    show r.forward_reading (r.backward_reading v) = v
    exact forward_backward_reading r hr.1 v h0 (by rw [hr.2]; exact hv)

theorem read_forward_range (m : EnigmaMachine) (hn : 0 < m.length)
    (hetw : wireInspection m.etw.wire = true) (hetwn : m.etw.wire.length = m.length)
    (hrs : RotorsOK m.length m.rotors) (v : Int) (h0 : 0 ≤ v) (hv : v < (m.length : Int)) :
    0 ≤ m.read_forward v ∧ m.read_forward v < (m.length : Int) := by
  unfold EnigmaMachine.read_forward
  have he := forward_reading_range m.etw (hetwn ▸ hn) v
  exact foldl_forward_range m.length hn m.rotors.reverse
    (rotorsOK_reverse _ _ hrs) _ he.1 (by rw [← hetwn]; exact he.2)

theorem read_backward_range (m : EnigmaMachine) (hn : 0 < m.length)
    (hetw : wireInspection m.etw.wire = true) (hetwn : m.etw.wire.length = m.length)
    (hrs : RotorsOK m.length m.rotors) (v : Int) (h0 : 0 ≤ v) (hv : v < (m.length : Int)) :
    0 ≤ m.read_backward v ∧ m.read_backward v < (m.length : Int) := by
  unfold EnigmaMachine.read_backward
  have hf := foldl_backward_range m.length hn m.rotors hrs v h0 hv
  have he := backward_reading_range m.etw (hetwn ▸ hn)
    (List.foldl (fun i r => r.backward_reading i) v m.rotors)
  refine ⟨he.1, ?_⟩
  rw [← hetwn]
  exact he.2

theorem read_backward_read_forward (m : EnigmaMachine) (hn : 0 < m.length)
    (hetw : wireInspection m.etw.wire = true) (hetwn : m.etw.wire.length = m.length)
    (hrs : RotorsOK m.length m.rotors) (v : Int) (h0 : 0 ≤ v) (hv : v < (m.length : Int)) :
    m.read_backward (m.read_forward v) = v := by
  unfold EnigmaMachine.read_forward EnigmaMachine.read_backward
  have he := forward_reading_range m.etw (hetwn ▸ hn) v
  rw [foldl_backward_foldl_forward m.length hn m.rotors hrs (m.etw.forward_reading v)
    he.1 (by rw [← hetwn]; exact he.2)]
  exact backward_forward_reading m.etw hetw v h0 (by rw [hetwn]; exact hv)

theorem read_forward_read_backward (m : EnigmaMachine) (hn : 0 < m.length)
    (hetw : wireInspection m.etw.wire = true) (hetwn : m.etw.wire.length = m.length)
    (hrs : RotorsOK m.length m.rotors) (v : Int) (h0 : 0 ≤ v) (hv : v < (m.length : Int)) :
    m.read_forward (m.read_backward v) = v := by
  unfold EnigmaMachine.read_forward EnigmaMachine.read_backward
  have hf := foldl_backward_range m.length hn m.rotors hrs v h0 hv
  have hfb : m.etw.forward_reading (m.etw.backward_reading
      (List.foldl (fun i r => r.backward_reading i) v m.rotors)) =
      List.foldl (fun i r => r.backward_reading i) v m.rotors :=
    forward_backward_reading m.etw hetw _ hf.1 (by rw [hetwn]; exact hf.2)
  rw [hfb]
  exact foldl_forward_foldl_backward m.length hn m.rotors hrs v h0 hv

/-! ## Stepping-cycle structure lemmas -/

theorem turn_fst_wire (r : Rotor) : ((r.turn).1).wire = r.wire := by
  unfold Rotor.turn
  cases r.rotation <;> rfl

theorem turnItems_map_wire :
    ∀ (nct : Bool) (items : List Rotor),
      (turnItems nct items).map Rotor.wire = items.map Rotor.wire
  | _, [] => rfl
  | nct, r :: rest => by
    rw [turnItems]
    by_cases h1 : r.can_rotate
    · rw [if_pos h1]
      by_cases h2 : (nct || r.is_in_turnover_position) = true
      · rw [if_pos h2]
        by_cases h3 : ((r.turn).2).truthy = true
        · rw [if_pos h3, List.map_cons, List.map_cons, turn_fst_wire,
            turnItems_map_wire ((r.turn).2).truthy rest]
        · rw [if_neg h3, List.map_cons, List.map_cons, turn_fst_wire]
      · rw [if_neg h2]
    · rw [if_neg h1, List.map_cons, List.map_cons,
        turnItems_map_wire nct rest]

theorem turnItems_length (nct : Bool) (items : List Rotor) :
    (turnItems nct items).length = items.length := by
  have h := congrArg List.length (turnItems_map_wire nct items)
  simpa using h

theorem headD_map {α β : Type} (f : α → β) (l : List α) (d : α) :
    (l.map f).headD (f d) = f (l.headD d) := by
  cases l <;> rfl

/-- The parts of the machine state that one stepping cycle leaves intact when
a reflector is loaded: the machine length and plugboard, and the wire of
every component (only positions move). -/
theorem turn_preserves (m : EnigmaMachine) (ukw : Rotor)
    (hrefl : m.reflector = some ukw) :
    (m.turn).length = m.length ∧
    (m.turn).plugboard = m.plugboard ∧
    ((m.turn).etw).wire = m.etw.wire ∧
    (m.turn).rotors.map Rotor.wire = m.rotors.map Rotor.wire ∧
    ∃ ukw2 : Rotor, (m.turn).reflector = some ukw2 ∧ ukw2.wire = ukw.wire := by
  have hW : (turnItems true (m.etw :: (m.rotors.reverse ++ [ukw]))).map Rotor.wire
      = m.etw.wire :: ((m.rotors.reverse.map Rotor.wire) ++ [ukw.wire]) := by
    rw [turnItems_map_wire]
    simp
  unfold EnigmaMachine.turn
  rw [hrefl]
  refine ⟨rfl, rfl, ?_, ?_, ?_⟩
  · have := headD_map Rotor.wire
      (turnItems true (m.etw :: (m.rotors.reverse ++ [ukw]))) m.etw
    rw [hW] at this
    simpa using this.symm
  · have hmap : (((turnItems true (m.etw :: (m.rotors.reverse ++ [ukw]))).drop 1).take
        m.rotors.length).reverse.map Rotor.wire
        = ((((turnItems true (m.etw :: (m.rotors.reverse ++ [ukw]))).map Rotor.wire).drop 1).take
            m.rotors.length).reverse := by
      rw [List.map_reverse, List.map_take, List.map_drop]
    rw [hmap, hW]
    have hlen : m.rotors.length = (m.rotors.reverse.map Rotor.wire).length := by simp
    rw [List.drop_one, List.tail_cons, hlen, List.take_left]
    rw [List.map_reverse, List.reverse_reverse]
  · refine ⟨_, rfl, ?_⟩
    have := headD_map Rotor.wire
      ((turnItems true (m.etw :: (m.rotors.reverse ++ [ukw]))).drop (1 + m.rotors.length)) ukw
    rw [List.map_drop, hW] at this
    have hdrop : (m.etw.wire :: ((m.rotors.reverse.map Rotor.wire) ++ [ukw.wire])).drop
        (1 + m.rotors.length) = [ukw.wire] := by
      rw [Nat.add_comm 1 m.rotors.length, List.drop_succ_cons]
      have h1 : m.rotors.length = (m.rotors.reverse.map Rotor.wire).length := by simp
      rw [h1, List.drop_left]
    rw [hdrop] at this
    simpa using this.symm

/-! ## The encode pipeline -/

/-- The value part of a successful `encode` call on machine state `m2`
(the post-stepping state): plugboard, forward pass, reflector, backward
pass, plugboard. -/
def signalPath (m2 : EnigmaMachine) (pb : List (Nat × Nat)) (x : Nat) : Nat :=
  readPlugboard pb
    ((m2.read_backward
        (m2.read_reflector (m2.read_forward ((readPlugboard pb x : Nat) : Int)) false)).toNat)

theorem encode_eq (m : EnigmaMachine) (x : Nat) (hrot : m.rotors ≠ [])
    (hrefl : m.reflector.isSome) (hx : x < m.length) :
    m.encode x = (m.turn, Except.ok (signalPath m.turn m.plugboard x)) := by
  unfold EnigmaMachine.encode
  have h1 : ¬ (m.rotors.length ≤ 0) := by
    simpa [Nat.not_le, List.length_pos] using hrot
  have h2 : ¬ (m.reflector.isNone = true) := by
    rcases hc : m.reflector with _ | u
    · rw [hc] at hrefl
      simp at hrefl
    · simp
  have h3 : ¬ (m.length ≤ x) := Nat.not_le.2 hx
  rw [if_neg h1, if_neg h2, if_neg h3]
  rfl

theorem readPlugboard_lt (n : Nat) (pb : List (Nat × Nat))
    (hpb : ∀ a b, List.lookup a pb = some b →
      List.lookup b pb = some a ∧ a < n ∧ b < n)
    (v : Nat) (hv : v < n) : readPlugboard pb v < n := by
  unfold readPlugboard
  rcases h : List.lookup v pb with _ | b
  · exact hv
  · exact (hpb v b h).2.2

theorem signalPath_inverse (m2 : EnigmaMachine) (ukw2 : Rotor)
    (hrefl2 : m2.reflector = some ukw2)
    (hrs2 : RotorsOK m2.length m2.rotors)
    (hetw2 : wireInspection m2.etw.wire = true)
    (hetw2n : m2.etw.wire.length = m2.length)
    (hukw2 : wireInspection ukw2.wire = true)
    (hukw2n : ukw2.wire.length = m2.length)
    (hinv2 : involutiveWire ukw2.wire = true)
    (pb : List (Nat × Nat))
    (hpb : ∀ a b, List.lookup a pb = some b →
      List.lookup b pb = some a ∧ a < m2.length ∧ b < m2.length)
    (x : Nat) (hx : x < m2.length) :
    signalPath m2 pb x < m2.length ∧ signalPath m2 pb (signalPath m2 pb x) = x := by
  have hn : 0 < m2.length :=
    lt_of_lt_of_le (by norm_num) (hukw2n ▸ wireInspection_two_le _ hukw2)
  have hsym : PlugboardSym pb := fun a b h => (hpb a b h).1
  have hrr : ∀ z : Int, m2.read_reflector z false = ukw2.forward_reading z := by
    intro z
    unfold EnigmaMachine.read_reflector
    rw [hrefl2]
    simp
  -- stage values and their ranges
  have hv1 : readPlugboard pb x < m2.length := readPlugboard_lt _ pb hpb x hx
  have hv1i0 : (0 : Int) ≤ ((readPlugboard pb x : Nat) : Int) := Int.natCast_nonneg _
  have hv1in : ((readPlugboard pb x : Nat) : Int) < (m2.length : Int) := by
    exact_mod_cast hv1
  have hv2r := read_forward_range m2 hn hetw2 hetw2n hrs2 _ hv1i0 hv1in
  have hv2ukw : m2.read_forward ((readPlugboard pb x : Nat) : Int) < (ukw2.wire.length : Int) := by
    rw [hukw2n]
    exact hv2r.2
  have hv3r := forward_reading_range ukw2 (hukw2n ▸ hn) (m2.read_forward ((readPlugboard pb x : Nat) : Int))
  have hv3n : ukw2.forward_reading (m2.read_forward ((readPlugboard pb x : Nat) : Int)) < (m2.length : Int) := by
    rw [← hukw2n]
    exact hv3r.2
  have hv4r := read_backward_range m2 hn hetw2 hetw2n hrs2 _ hv3r.1 hv3n
  have hv4nat : (m2.read_backward (ukw2.forward_reading
      (m2.read_forward ((readPlugboard pb x : Nat) : Int)))).toNat < m2.length :=
    (Int.toNat_lt hv4r.1).2 hv4r.2
  constructor
  · unfold signalPath
    rw [hrr]
    exact readPlugboard_lt _ pb hpb _ hv4nat
  · conv_lhs =>
      rw [signalPath, signalPath]
    rw [hrr, hrr]
    rw [sym_swap_involutive pb hsym]
    rw [Int.toNat_of_nonneg hv4r.1]
    rw [read_forward_read_backward m2 hn hetw2 hetw2n hrs2 _ hv3r.1 hv3n]
    rw [forward_forward_involutive ukw2 hukw2 hinv2 _ hv2r.1 hv2ukw]
    rw [read_backward_read_forward m2 hn hetw2 hetw2n hrs2 _ hv1i0 hv1in]
    rw [Int.toNat_natCast]
    exact sym_swap_involutive pb hsym x

/-! ## Claim theorems -/

/-- C1: For every machine with a loaded rotor stack, an involutive reflector
wire, and any plugboard (a symmetric partial involution over `[0, n)` — the
only plugboards `plug`/`unplug` can build), and for every symbol `x` in
`[0, n)`: if `encode(x)` from state `S` yields `y`, then resetting the
machine to state `S` and calling `encode(y)` (same call, no decode flag)
yields `x`. -/
theorem C1_encode_round_trip (m : EnigmaMachine) (ukw : Rotor)
    (hrefl : m.reflector = some ukw)
    (hrot : m.rotors ≠ [])
    (hrs : RotorsOK m.length m.rotors)
    (hetw : wireInspection m.etw.wire = true) (hetwn : m.etw.wire.length = m.length)
    (hukw : wireInspection ukw.wire = true) (hukwn : ukw.wire.length = m.length)
    (hinv : involutiveWire ukw.wire = true)
    (hpb : ∀ a b, List.lookup a m.plugboard = some b →
      List.lookup b m.plugboard = some a ∧ a < m.length ∧ b < m.length)
    (x : Nat) (hx : x < m.length) :
    ∃ (m2 : EnigmaMachine) (y : Nat),
      m.encode x = (m2, Except.ok y) ∧ y < m.length ∧ m.encode y = (m2, Except.ok x) := by
  obtain ⟨hlen2, hpb2, hetw2w, hrw2, ukw2, hrefl2, hukw2w⟩ := turn_preserves m ukw hrefl
  have hisSome : m.reflector.isSome := by rw [hrefl]; rfl
  -- transport the validity hypotheses to the stepped machine `m.turn`
  have hrs2 : RotorsOK (m.turn).length (m.turn).rotors := by
    rw [hlen2]
    intro r hr
    have hw : r.wire ∈ (m.turn).rotors.map Rotor.wire := List.mem_map_of_mem _ hr
    rw [hrw2] at hw
    obtain ⟨s, hs, hsw⟩ := List.mem_map.1 hw
    have hsOK := hrs s hs
    exact ⟨by rw [← hsw]; exact hsOK.1, by rw [← hsw]; exact hsOK.2⟩
  have hetw2 : wireInspection (m.turn).etw.wire = true := by
    rw [hetw2w]; exact hetw
  have hetw2n : (m.turn).etw.wire.length = (m.turn).length := by
    rw [hetw2w, hlen2]; exact hetwn
  have hukw2 : wireInspection ukw2.wire = true := by rw [hukw2w]; exact hukw
  have hukw2n : ukw2.wire.length = (m.turn).length := by
    rw [hukw2w, hlen2]; exact hukwn
  have hinv2 : involutiveWire ukw2.wire = true := by rw [hukw2w]; exact hinv
  have hpbt : ∀ a b, List.lookup a m.plugboard = some b →
      List.lookup b m.plugboard = some a ∧ a < (m.turn).length ∧ b < (m.turn).length := by
    intro a b h
    have := hpb a b h
    exact ⟨this.1, by rw [hlen2]; exact this.2.1, by rw [hlen2]; exact this.2.2⟩
  have hxt : x < (m.turn).length := by rw [hlen2]; exact hx
  have hmain := signalPath_inverse (m.turn) ukw2 hrefl2 hrs2 hetw2 hetw2n hukw2 hukw2n
    hinv2 m.plugboard hpbt x hxt
  have hy : signalPath m.turn m.plugboard x < m.length := by
    rw [← hlen2]; exact hmain.1
  refine ⟨m.turn, signalPath m.turn m.plugboard x,
    encode_eq m x hrot hisSome hx, hy, ?_⟩
  rw [encode_eq m (signalPath m.turn m.plugboard x) hrot hisSome hy, hmain.2]

/-- C2: For every rotor built from a valid wire, every position in `[0, n)`,
every ring offset in `[0, n)`, and every `x` in `[0, n)`:
`backward_reading(forward_reading(x)) == x`. -/
theorem C2_backward_forward_inverse (r : Rotor)
    (hw : wireInspection r.wire = true)
    (_hpos : r.position < r.length) (_hoff : r.offset < r.length)
    (x : Int) (h0 : 0 ≤ x) (hx : x < (r.length : Int)) :
    r.backward_reading (r.forward_reading x) = x :=
  backward_forward_reading r hw x h0 hx

/-- Witness for C2 at the rotor IC-style wire `[1, 2, 0]`, position 1,
offset 2, input 2. -/
theorem C2_backward_forward_inverse_witness :
    Rotor.backward_reading
      { wire := [1, 2, 0], position := 1, offset := 2, turnovers := [], rotation := .normal }
      (Rotor.forward_reading
        { wire := [1, 2, 0], position := 1, offset := 2, turnovers := [], rotation := .normal } 2)
      = 2 :=
  C2_backward_forward_inverse
    { wire := [1, 2, 0], position := 1, offset := 2, turnovers := [], rotation := .normal }
    (by decide) (by decide) (by decide) 2 (by decide) (by decide)

/-- Witness for C1: the concrete 3-symbol machine `c1Machine` encoding the
symbol 0. -/
theorem C1_encode_round_trip_witness :
    ∃ (m2 : EnigmaMachine) (y : Nat),
      c1Machine.encode 0 = (m2, Except.ok y) ∧ y < c1Machine.length ∧
        c1Machine.encode y = (m2, Except.ok 0) :=
  C1_encode_round_trip c1Machine { wire := [1, 0, 2], rotation := .without }
    (by decide) (by decide)
    (by unfold RotorsOK; decide)
    (by decide) (by decide) (by decide) (by decide) (by decide)
    (by
      intro a b h
      rw [show c1Machine.plugboard = [(0, 2), (2, 0)] from rfl,
        lookup_cons] at h
      by_cases h0 : a = 0
      · rw [if_pos h0] at h
        injection h with hb
        subst h0
        subst hb
        exact ⟨by decide, by decide, by decide⟩
      · rw [if_neg h0, lookup_cons] at h
        by_cases h2 : a = 2
        · rw [if_pos h2] at h
          injection h with hb
          subst h2
          subst hb
          exact ⟨by decide, by decide, by decide⟩
        · rw [if_neg h2] at h
          simp at h)
    0 (by decide)

/-- C3 (code bug evaluation): constructing a `Reflector` from the wire
`[1, 2, 0]` — a bijection over `{0, 1, 2}` that is NOT an involution
(`wire[wire[0]] = wire[1] = 2 ≠ 0`) — SUCCEEDS, because `Rotor.__init__`
calls `wire_inspection` and `Reflector` only overrides the never-called
`_wire_inspection`; the claim (and the spec) say construction must fail with
the non-involutive-permutation error. -/
theorem C3_reflector_accepts_non_involutive_wire :
    reflectorInit [1, 2, 0] 0 0 [] .without none
      = Except.ok { wire := [1, 2, 0], offset := 0, position := 0, turnovers := [],
                    rotation := .without, description := none } ∧
    wireInspection [1, 2, 0] = true ∧
    involutiveWire [1, 2, 0] = false := by
  exact ⟨rfl, by decide, by decide⟩

/-- C4 (code bug evaluation): for the Fixed (`'without'`) rotor `c4Rotor`
(which sits on a turnover position), `turn()` leaves the rotor unchanged —
as the claim says — but returns the 2-tuple `(True, True)` rather than the
boolean `True` that the claim, the `-> bool` annotation and the docstring
describe. -/
theorem C4_fixed_turn_returns_tuple :
    c4Rotor.turn = (c4Rotor, TurnResult.pair true true) ∧
      TurnResult.pair true true ≠ TurnResult.bool true := by
  decide

/-- C5 counterexample: on `c5Machine` the visited list is the two normal
rotors (second-loaded first); the first visited rotor steps and returns no
propagation, and the loop breaks BEFORE looking at the next rotor, even
though that rotor sits on its turnover position.  The claim's stepping rule
(`turnClaimItems`, "steps iff previous propagated OR itself on a turnover")
would step it.  Code result: positions `[0, 1]` (in load order); claim's
rule: both visited rotors step, positions `[1, 1]`. -/
theorem C5_turn_counterexample :
    ((c5Machine.turn).rotors.map Rotor.position = [0, 1]) ∧
      ((turnClaimItems true c5Machine.get_non_stationary_items).map Rotor.position
        = [1, 1]) ∧
      (turnClaimItems true c5Machine.get_non_stationary_items
        ≠ turnItems true c5Machine.get_non_stationary_items) := by
  decide

theorem turnItems_prefix_char :
    ∀ (items : List Rotor), (∀ r ∈ items, r.can_rotate = true) →
      ∀ (i : Nat) (d : Rotor), i < items.length →
        (turnItems true items).getD i d =
          (if ((items.take i).all fun s => ((s.turn).2).truthy) = true
           then ((items.getD i d).turn).1
           else items.getD i d)
  | [], _, i, _, hi => by simp at hi
  | r :: rest, hall, i, d, hi => by
    have hr : r.can_rotate = true := hall r (List.mem_cons_self r rest)
    have hrest : ∀ s ∈ rest, s.can_rotate = true :=
      fun s hs => hall s (List.mem_cons_of_mem r hs)
    by_cases htr : ((r.turn).2).truthy = true
    · match i with
      | 0 => simp [turnItems, hr, htr]
      | i + 1 =>
        have hi' : i < rest.length := by simpa using hi
        have hIH := turnItems_prefix_char rest hrest i d hi'
        simp only [turnItems, hr, if_true, Bool.true_or, htr, if_pos,
          List.getD_cons_succ, List.take_succ_cons, List.all_cons, Bool.true_and]
        exact hIH
    · match i with
      | 0 => simp [turnItems, hr, htr]
      | i + 1 =>
        have htr' : ((r.turn).2).truthy = false := by
          simpa using htr
        simp only [turnItems, hr, if_true, Bool.true_or, htr', if_neg,
          List.getD_cons_succ, List.take_succ_cons, List.all_cons, Bool.false_and,
          Bool.false_eq_true, if_false]

/-- C5 (amended): one stepping cycle visits exactly the elements of
`[entry_wheel, *reversed(rotor_stack), reflector]` that can step when a
reflector is set — when none is set, the elements of the rotor stack in load
order that can step, without the entry wheel — in that order; the visited
elements that step form a prefix: the first always steps, and a later
element steps iff every earlier visited element's `step()` returned
propagation.  An element's own turnover position cannot make it step once
propagation has stopped, because the cycle exits at the first element whose
`step()` does not signal propagation. -/
theorem C5_amended_prefix_stepping :
    (∀ (m : EnigmaMachine) (ukw : Rotor), m.reflector = some ukw →
        m.get_non_stationary_items
          = (m.etw :: (m.rotors.reverse ++ [ukw])).filter Rotor.can_rotate) ∧
    (∀ m : EnigmaMachine, m.reflector = none →
        m.get_non_stationary_items = m.rotors.filter Rotor.can_rotate) ∧
    (∀ (items : List Rotor), (∀ r ∈ items, r.can_rotate = true) →
      ∀ (i : Nat) (d : Rotor), i < items.length →
        (turnItems true items).getD i d =
          (if ((items.take i).all fun s => ((s.turn).2).truthy) = true
           then ((items.getD i d).turn).1
           else items.getD i d)) := by
  refine ⟨?_, ?_, turnItems_prefix_char⟩
  · intro m ukw h
    unfold EnigmaMachine.get_non_stationary_items
    rw [h]
  · intro m h
    unfold EnigmaMachine.get_non_stationary_items
    rw [h]

/-- Witness for C5 (amended), at the visited list of `c5Machine` (two normal
rotors, the second of which sits on its turnover position): the second
visited element keeps its position because the first one did not propagate. -/
theorem C5_amended_prefix_stepping_witness :
    (turnItems true c5Machine.get_non_stationary_items).getD 1
        { wire := [0, 1] } =
      (if ((c5Machine.get_non_stationary_items.take 1).all
            fun s => ((s.turn).2).truthy) = true
       then ((c5Machine.get_non_stationary_items.getD 1 { wire := [0, 1] }).turn).1
       else c5Machine.get_non_stationary_items.getD 1 { wire := [0, 1] }) :=
  C5_amended_prefix_stepping.2.2 c5Machine.get_non_stationary_items
    (by decide) 1 { wire := [0, 1] } (by decide)

/-- C6 (code bug evaluation): `_rotor_index_finder` computes
`len(self._rotors) - rotor_index` for a negative `rotor_index` (instead of
`len + rotor_index`), which lands outside `[0, len)`, so EVERY negative
index raises the out-of-range `ValueError`; the claim (and the docstring:
"positive or negative integer") says `-1` must resolve to the last loaded
rotor. -/
theorem C6_negative_index_always_fails (numRotors : Nat) (i : Int) (h : i < 0) :
    rotorIndexFinder numRotors i = Except.error () := by
  unfold rotorIndexFinder
  rw [if_pos h, if_neg]
  intro hcon
  omega

/-- Witness for C6: index `-1` on a 2-rotor stack fails instead of
resolving to index 1. -/
theorem C6_negative_index_always_fails_witness :
    rotorIndexFinder 2 (-1) = Except.error () :=
  C6_negative_index_always_fails 2 (-1) (by decide)

/-- C7 counterexample: `plug(0, 1, 0, 2)` on an EMPTY plugboard of a
4-symbol machine processes the extra pair `(0, 2)` FIRST (the recursive
`self.plug(*others_values)` call runs before any validation of the first
pair), then fails with the already-connected `KeyError` on `(0, 1)` — and
the plugboard is left holding `{0: 2, 2: 0}`, not its previous (empty)
state. -/
theorem C7_plug_counterexample :
    plug 4 [] [0, 1, 0, 2] = ([(0, 2), (2, 0)], some (PlugError.alreadyConnected 0)) ∧
      ((0, 2) :: (2, 0) :: ([] : List (Nat × Nat))) ≠ [] := by
  decide

/-- C7 (amended): when a `plug` call with exactly one pair (two arguments)
fails with the already-connected error, the plugboard is exactly as it was
before the call; when additional pairs are passed in one call, the pairs
handled by the recursive call (which runs first) keep their mutations — only
the failing pair itself is left unapplied. -/
theorem C7_plug_two_arg_error_unchanged (n : Nat) (pb : List (Nat × Nat))
    (a b v : Nat)
    (h : (plug n pb [a, b]).2 = some (PlugError.alreadyConnected v)) :
    (plug n pb [a, b]).1 = pb := by
  rw [plug] at h ⊢
  simp only [List.isEmpty_nil, if_true] at h ⊢
  by_cases h1 : n ≤ a
  · simp [h1]
  rw [if_neg h1] at h ⊢
  by_cases h2 : n ≤ b
  · simp [h2]
  rw [if_neg h2] at h ⊢
  by_cases h3 : (List.lookup a pb).isSome
  · rw [if_pos h3] at h ⊢
    by_cases h4 : List.lookup a pb = some b
    · rw [if_pos h4] at h
      simp at h
    · rw [if_neg h4]
  · rw [if_neg h3] at h ⊢
    by_cases h5 : (List.lookup b pb).isSome
    · rw [if_pos h5]
    · rw [if_neg h5] at h
      simp at h

/-- Witness for C7 (amended): a two-argument `plug` call that hits the
already-connected error leaves the concrete plugboard `{0: 2, 2: 0}`
unchanged. -/
theorem C7_plug_two_arg_error_unchanged_witness :
    (plug 4 [(0, 2), (2, 0)] [0, 1]).1 = [(0, 2), (2, 0)] :=
  C7_plug_two_arg_error_unchanged 4 [(0, 2), (2, 0)] 0 1 0 (by decide)

/-- C8: for every plugboard state reachable by successful `plug` / `unplug`
calls and every `x` in `[0, n)`: `swap(swap(x)) == x`, whether or not `x` is
connected. -/
theorem C8_plugboard_swap_involutive (n : Nat) (pb : List (Nat × Nat))
    (h : ReachablePB n pb) (x : Nat) (_hx : x < n) :
    readPlugboard pb (readPlugboard pb x) = x :=
  sym_swap_involutive pb (reachable_sym n pb h) x

/-- Witness for C8 at the plugboard `{0: 1, 1: 0}` reached by
`plug(0, 1)` on a 4-symbol machine, swapping 0 twice. -/
theorem C8_plugboard_swap_involutive_witness :
    readPlugboard [(0, 1), (1, 0)] (readPlugboard [(0, 1), (1, 0)] 0) = 0 :=
  C8_plugboard_swap_involutive 4 [(0, 1), (1, 0)]
    (ReachablePB.plugStep [] [(0, 1), (1, 0)] [0, 1] ReachablePB.empty (by decide))
    0 (by decide)

/-- C9: `encode` fails with `NoRotorError` whenever the rotor stack is
empty, and with `NoReflectorError` whenever a rotor is loaded but no
reflector is set — in both cases returning the machine unchanged (the
checks run before `turn()` and before the input symbol is touched); with at
least one rotor and a reflector it raises neither error. -/
theorem C9_encode_preconditions (m : EnigmaMachine) (x : Nat) :
    (m.rotors = [] → m.encode x = (m, Except.error EncodeError.noRotor)) ∧
    (m.rotors ≠ [] → m.reflector = none →
      m.encode x = (m, Except.error EncodeError.noReflector)) ∧
    (m.rotors ≠ [] → m.reflector.isSome →
      (m.encode x).2 ≠ Except.error EncodeError.noRotor ∧
      (m.encode x).2 ≠ Except.error EncodeError.noReflector) := by
  refine ⟨?_, ?_, ?_⟩
  · intro h
    unfold EnigmaMachine.encode
    rw [if_pos (by simp [h])]
  · intro h hnone
    unfold EnigmaMachine.encode
    rw [if_neg (by simpa [Nat.not_le, List.length_pos] using h),
      if_pos (by simp [hnone])]
  · intro h hsome
    unfold EnigmaMachine.encode
    have hnn : ¬ (m.reflector.isNone = true) := by
      rcases hc : m.reflector with _ | u
      · rw [hc] at hsome
        simp at hsome
      · simp
    rw [if_neg (by simpa [Nat.not_le, List.length_pos] using h), if_neg hnn]
    by_cases hx : m.length ≤ x
    · rw [if_pos hx]
      constructor <;> simp
    · rw [if_neg hx]
      constructor <;> simp

/-- Witness for C9: a machine with no rotor fails with the no-rotor error,
and a machine with a rotor but no reflector fails with the no-reflector
error, each left unchanged. -/
theorem C9_encode_preconditions_witness :
    c9MachineNoRotor.encode 0 = (c9MachineNoRotor, Except.error EncodeError.noRotor) ∧
      c9MachineNoReflector.encode 0
        = (c9MachineNoReflector, Except.error EncodeError.noReflector) :=
  ⟨(C9_encode_preconditions c9MachineNoRotor 0).1 rfl,
   (C9_encode_preconditions c9MachineNoReflector 0).2.1 (by decide) rfl⟩

/-- C10: `get_configuration` stores the rotor's position under the key
`"offset"` and its ring offset under the key `"position"`, so the rotor
produced by `copy()` has position and offset exchanged, while wire,
turnovers, rotation and description are preserved. -/
theorem C10_configuration_swaps_position_offset (r : Rotor)
    (hw : wireInspection r.wire = true)
    (hpos : r.position < r.length) (hoff : r.offset < r.length)
    (hto : ∀ t ∈ r.turnovers, t < r.length) :
    r.get_configuration.position = r.offset ∧
    r.get_configuration.offset = r.position ∧
    ∃ r2 : Rotor, r.copy = Except.ok r2 ∧ r2.position = r.offset ∧
      r2.offset = r.position ∧ r2.wire = r.wire ∧ r2.turnovers = r.turnovers ∧
      r2.rotation = r.rotation ∧ r2.description = r.description := by
  refine ⟨rfl, rfl, ?_⟩
  unfold Rotor.copy rotorInit Rotor.get_configuration
  simp only
  rw [if_neg (by simp [hw])]
  rw [if_neg (by unfold Rotor.length at hpos; omega)]
  rw [if_neg (by
    simp only [List.any_eq_true]
    rintro ⟨t, ht, hle⟩
    have hlt := hto t ht
    unfold Rotor.length at hlt
    simp at hle
    omega)]
  refine ⟨_, rfl, ?_, rfl, rfl, rfl, rfl, rfl⟩
  show r.offset % r.wire.length = r.offset
  unfold Rotor.length at hoff
  exact Nat.mod_eq_of_lt hoff

/-- Witness for C10: a 2-wire rotor with position 1 and offset 0 copies to a
rotor with position 0 and offset 1. -/
theorem C10_configuration_swaps_position_offset_witness :
    (Rotor.get_configuration { wire := [1, 0], position := 1, offset := 0 }).position = 0 ∧
    (Rotor.get_configuration { wire := [1, 0], position := 1, offset := 0 }).offset = 1 ∧
    ∃ r2 : Rotor, Rotor.copy { wire := [1, 0], position := 1, offset := 0 }
        = Except.ok r2 ∧ r2.position = 0 ∧ r2.offset = 1 ∧ r2.wire = [1, 0] ∧
      r2.turnovers = [] ∧ r2.rotation = RotationMode.normal ∧ r2.description = none :=
  C10_configuration_swaps_position_offset
    { wire := [1, 0], position := 1, offset := 0 }
    (by decide) (by decide) (by decide) (by decide)
